import Mathlib

/-!
Shallow embedding of the `parselib_rs` parser-combinator library
(`src/lib.rs`, `src/parsers.rs`) and proofs about its claims.

Modelling conventions:
* A Rust `String` is modelled by its sequence of characters (`List Char`);
  byte-level operations of the source (`String::len`, byte-index slicing)
  are recovered through the UTF-8 byte width of each character.
* A Rust panic (out-of-bounds or non-character-boundary slice, `unwrap` on
  `None`) is modelled by the `PResult.panicked` outcome; a normal return is
  `PResult.ok`.
* `usize::max_value()` is the concrete number `2 ^ 64 - 1`.
* The `Parser` trait object is modelled by the function type `ParserFn`;
  the library's own combinators are additionally collected in the
  inductive `Combinator` with interpretation `Combinator.run`, used by the
  claims that quantify over "every combinator built from the library's
  parsers".
-/

/-- Outcome of running Rust code that can panic: either a panic, or a value. -/
inductive PResult (α : Type) where
  | panicked : PResult α
  | ok : α → PResult α
deriving DecidableEq, Repr

/-- Number of bytes of the UTF-8 encoding of a character, as computed by
Rust's `char::len_utf8`. -/
def utf8Width (c : Char) : Nat :=
  if c.toNat < 0x80 then 1
  else if c.toNat < 0x800 then 2
  else if c.toNat < 0x10000 then 3
  else 4

/-- Byte length of the UTF-8 encoding of a string, i.e. Rust's
`String::len` of the string holding these characters. -/
def byteLen : List Char → Nat
  | [] => 0
  | c :: rest => utf8Width c + byteLen rest

/-- Rust byte-index slicing `&s[k..]` of a string holding the characters
`l`: `some` suffix when `k` lands on a character boundary at or before the
end, `none` when the slice panics (index past the end, or inside the UTF-8
encoding of a character). -/
def dropBytes : List Char → Nat → Option (List Char)
  | l, 0 => some l
  | [], _ + 1 => none
  | c :: rest, k + 1 =>
    if utf8Width c ≤ k + 1 then dropBytes rest (k + 1 - utf8Width c) else none

/-- The cursor `ParserState` of `src/lib.rs`: the remaining input and the
index (offset) already consumed from the original input. -/
structure ParserState where
  input : List Char
  index : Nat
deriving DecidableEq, Repr

/-- `ParserState::new_offset` of `src/lib.rs`. -/
def ParserState.new_offset (input : List Char) (index : Nat) : ParserState :=
  ⟨input, index⟩

/-- `ParserState::new` of `src/lib.rs`. -/
def ParserState.new (input : List Char) : ParserState :=
  ParserState.new_offset input 0

/-- `ParserState::char` of `src/lib.rs` (lines 34–46).  The source compares
`offset` against the *byte* length of the input, slices the input at byte
index `offset + 1` (which panics when that index is not a character
boundary), adds `offset + 1` to the stored index, and returns
`self.input.chars().take(offset + 1).last().unwrap()` as the character. -/
def ParserState.char (s : ParserState) (offset : Nat) :
    PResult (Option (ParserState × Char)) :=
  if byteLen s.input ≤ offset then
    .ok none
  else
    match dropBytes s.input (offset + 1), (s.input.take (offset + 1)).getLast? with
    | some rest, some c => .ok (some (⟨rest, s.index + offset + 1⟩, c))
    | _, _ => .panicked

/-- The error enum `ParseError` of `src/lib.rs`. -/
inductive ParseError where
  | unknown : ParseError
  | unexpected : Option String → Option String → ParseError
  | wrongCount : Nat → Nat → Nat → ParseError
deriving DecidableEq, Repr

/-- A parser in the sense of the `Parser<OutputType, ErrorType>` trait of
`src/lib.rs`: a pure function from a cursor to a panic or a
`ParseResult` (error, or output paired with the new cursor). -/
abbrev ParserFn (α ε : Type) : Type :=
  ParserState → PResult (Except ε (α × ParserState))

/-- The `ParseChar` combinator of `src/parsers.rs`.  The source's `end`
field is called `end_` because `end` is a Lean keyword. -/
structure ParseChar where
  start : Option Char
  end_ : Option Char
deriving DecidableEq, Repr

/-- `ParseChar::from_range` of `src/parsers.rs`. -/
def ParseChar.from_range (start end_ : Char) : ParseChar :=
  ⟨some start, some end_⟩

/-- `ParseChar::from_start` of `src/parsers.rs`. -/
def ParseChar.from_start (start : Char) : ParseChar :=
  ⟨some start, none⟩

/-- `ParseChar::from_end` of `src/parsers.rs`. -/
def ParseChar.from_end (end_ : Char) : ParseChar :=
  ⟨none, some end_⟩

/-- `ParseChar::from_char` of `src/parsers.rs`. -/
def ParseChar.from_char (c : Char) : ParseChar :=
  ⟨some c, some c⟩

/-- `ParseChar::from_any` of `src/parsers.rs`. -/
def ParseChar.from_any : ParseChar :=
  ⟨none, none⟩

/-- The helper `expected_str_from_char_range` inside `ParseChar::parse`:
`format!("{}..{}", start.unwrap_or('\0'), end.unwrap_or('\0'))`. -/
def expected_str_from_char_range (start end_ : Option Char) : String :=
  String.mk [start.getD '\x00'] ++ ".." ++ String.mk [end_.getD '\x00']

/-- The check `self.start.map_or_else(|| true, |start| char_at >= start)`
inside `ParseChar::parse`. -/
def above_start (start : Option Char) (char_at : Char) : Bool :=
  match start with
  | none => true
  | some start => decide (start ≤ char_at)

/-- The check `self.end.map_or_else(|| true, |end| char_at <= end)` inside
`ParseChar::parse`. -/
def below_end (end_ : Option Char) (char_at : Char) : Bool :=
  match end_ with
  | none => true
  | some end_ => decide (char_at ≤ end_)

/-- `ParseChar::parse` of `src/parsers.rs` (lines 63–104): peek one
character with `char(0)`; fail with `Unexpected{.., found: None}` on empty
input; otherwise check the optional inclusive bounds and either succeed
with the character and the advanced state or fail with
`Unexpected{.., found: Some(c)}`. -/
def ParseChar.parse (p : ParseChar) (parser_state : ParserState) :
    PResult (Except ParseError (Char × ParserState)) :=
  match parser_state.char 0 with
  | .panicked => .panicked
  | .ok none =>
      .ok (.error (.unexpected (some (expected_str_from_char_range p.start p.end_)) none))
  | .ok (some (new_state, char_at)) =>
      if above_start p.start char_at && below_end p.end_ char_at then
        .ok (.ok (char_at, new_state))
      else
        .ok (.error (.unexpected (some (expected_str_from_char_range p.start p.end_))
          (some (String.mk [char_at]))))

/-- The loop of `ParseCount::parse` (`src/parsers.rs` lines 145–163).  The
Rust loop breaks as soon as `output.len() >= max` and otherwise appends
exactly one element per iteration, so running it with `fuel = max` starting
from the empty output is the same loop; `fuel` is `max - output.len()`. -/
def countLoop (parser : ParserFn α ε) :
    Nat → ParserState → List α → PResult (List α × ParserState)
  | 0, new_state, output => .ok (output, new_state)
  | fuel + 1, new_state, output =>
    match parser new_state with
    | .panicked => .panicked
    | .ok (.error _) => .ok (output, new_state)
    | .ok (.ok (parsed_new_output, parsed_new_state)) =>
        countLoop parser fuel parsed_new_state (output ++ [parsed_new_output])

/-- `ParseCount::parse` of `src/parsers.rs` (lines 140–178): loop the
sub-parser while fewer than `max` elements are collected and it keeps
succeeding, then fail with `WrongCount` when fewer than `min` elements were
collected, else succeed with the collected elements and the final state. -/
def ParseCount.parse (min max : Nat) (parser : ParserFn α ε)
    (parser_state : ParserState) :
    PResult (Except ParseError (List α × ParserState)) :=
  match countLoop parser max parser_state [] with
  | .panicked => .panicked
  | .ok (output, new_state) =>
      if output.length < min then
        .ok (.error (.wrongCount min max output.length))
      else
        .ok (.ok (output, new_state))

/-- `ParseAnd::parse` of `src/parsers.rs` (lines 227–239): run `parser_a`,
propagate its error, then run `parser_b` on the new state, propagate its
error, and otherwise pair the outputs. -/
def ParseAnd.parse (parser_a : ParserFn α ε) (parser_b : ParserFn β ε)
    (parser_state : ParserState) :
    PResult (Except ε ((α × β) × ParserState)) :=
  match parser_a parser_state with
  | .panicked => .panicked
  | .ok (.error e) => .ok (.error e)
  | .ok (.ok (a, new_state)) =>
    match parser_b new_state with
    | .panicked => .panicked
    | .ok (.error e) => .ok (.error e)
    | .ok (.ok (b, new_state2)) => .ok (.ok ((a, b), new_state2))

/-- Rust's `usize::max_value()` on a 64-bit target. -/
def usizeMax : Nat := 2 ^ 64 - 1

/-- `ParserExtensions::between` of `src/parsers.rs`. -/
def between (parser : ParserFn α ε) (min max : Nat) :
    ParserFn (List α) ParseError :=
  ParseCount.parse min max parser

/-- `ParserExtensions::at_least` of `src/parsers.rs`:
`between(min, usize::max_value())`. -/
def at_least (parser : ParserFn α ε) (min : Nat) :
    ParserFn (List α) ParseError :=
  between parser min usizeMax

/-- The combinators built from the library's parsers (`ParseChar`,
`ParseCount`, `ParseAnd`) by the builder surface, as a syntax tree. -/
inductive Combinator : Type → Type 1 where
  | pchar (p : ParseChar) : Combinator Char
  | count {α : Type} (min max : Nat) (sub : Combinator α) : Combinator (List α)
  | seq {α β : Type} (a : Combinator α) (b : Combinator β) : Combinator (α × β)

/-- Interpretation of a combinator tree by the `parse` functions of the
source; all the library's own combinators use the shared `ParseError`. -/
def Combinator.run : Combinator α → ParserFn α ParseError
  | .pchar p => p.parse
  | .count min max sub => ParseCount.parse min max sub.run
  | .seq a b => ParseAnd.parse a.run b.run

/-- Iterated application of a parser: `some (values, final state)` when the
parser succeeds `n` times in a row starting from `s`, `none` otherwise.
Used to state "the input contains (at least) `n` consecutive matches of the
sub-parser" for the repetition claims. -/
def iterateMatches (p : ParserFn α ε) : Nat → ParserState → Option (List α × ParserState)
  | 0, s => some ([], s)
  | n + 1, s =>
    match p s with
    | .ok (.ok (a, s')) =>
      match iterateMatches p n s' with
      | some (l, t) => some (a :: l, t)
      | none => none
    | _ => none

/-- Syntactic condition under which a combinator is *not* zero-width
capable: a character match always consumes on success; a repetition is
forced to consume when it requires at least one element and its sub-parser
always consumes; a sequence consumes when either side always consumes.
This is the negation of the spec's "zero-width-capable (a Repetition that
succeeds with zero matches)" carved out by the claim. -/
def consumesOnSuccess : Combinator α → Prop
  | .pchar _ => True
  | .count min _ sub => 1 ≤ min ∧ consumesOnSuccess sub
  | .seq a b => consumesOnSuccess a ∨ consumesOnSuccess b

/-- A zero-width always-succeeding combinator of the library:
`from_any().between(0, 0)` succeeds with empty output and an unchanged
cursor on every input. -/
def zeroWidthRep : ParserFn (List Char) ParseError :=
  ParseCount.parse 0 0 ParseChar.from_any.parse

/-- C1: the claim says every parse returns a value (Ok or Err) on every
input, including multi-byte UTF-8 input, and that `ParserState::char`
never slices the stored input at a non-character boundary.  The code
violates this: on input `"éx"` the combinator `from_any().between(0, 5)`
(and already the underlying `char(0)`) slices the input at byte index 1,
in the middle of the two-byte encoding of `'é'`, and panics. -/
theorem c1_parse_panics_on_multibyte :
    Combinator.run (.count 0 5 (.pchar ParseChar.from_any))
      (ParserState.new ['é', 'x']) = .panicked := by
  rfl

/-- C2: the claim says `char(n)` returns `None` iff fewer than `n + 1`
characters remain, and otherwise strips `n + 1` characters and adds
`n + 1` to the offset.  The code violates this: on input `"é"` (one
character, two bytes) `char(1)` returns `Some` although only one
character remains, and the offset jumps by 2 although one character was
consumed — the source counts bytes, not characters. -/
theorem c2_char_counts_bytes :
    (ParserState.new ['é']).char 1 = .ok (some (⟨[], 2⟩, 'é')) ∧
      (ParserState.new ['é']).input.length = 1 := by
  exact ⟨rfl, rfl⟩

/-- C4: the claim says that when a next character `c` exists and is out of
range, `ParseChar::parse` fails with `Unexpected{expected, found: Some(c)}`
(and succeeds when `c` is in range).  The code violates this on any
multi-byte next character: parsing `"é"` with `from_range('a', 'z')`
panics inside `char(0)` before the range is ever checked, instead of
returning the claimed error value. -/
theorem c4_char_match_panics_on_multibyte :
    (ParseChar.from_range 'a' 'z').parse (ParserState.new ['é']) = .panicked := by
  rfl

/-- C5: `ParseAnd::parse` runs A first; if A fails its error is propagated
unchanged and B is never run (the result does not depend on B); if A
succeeds, B runs on A's resulting cursor; if B fails its error is
propagated unchanged; if both succeed the result is the pair of values
with B's resulting cursor. -/
theorem c5_sequencing {α β ε : Type} (A : ParserFn α ε) (B : ParserFn β ε)
    (s : ParserState) :
    (∀ e, A s = .ok (.error e) →
      ∀ B' : ParserFn β ε, ParseAnd.parse A B' s = .ok (.error e)) ∧
    (∀ a s₁, A s = .ok (.ok (a, s₁)) →
      (∀ e, B s₁ = .ok (.error e) → ParseAnd.parse A B s = .ok (.error e)) ∧
      (∀ b s₂, B s₁ = .ok (.ok (b, s₂)) →
        ParseAnd.parse A B s = .ok (.ok ((a, b), s₂)))) := by
  refine ⟨fun e hA B' => ?_, fun a s₁ hA => ⟨fun e hB => ?_, fun b s₂ hB => ?_⟩⟩
  · simp [ParseAnd.parse, hA]
  · simp [ParseAnd.parse, hA, hB]
  · simp [ParseAnd.parse, hA, hB]

/-- Witness for C5 at concrete inputs: parsing `"ab"` with
`char('a').and(char('b'))` takes the both-succeed branch and yields
`(('a', 'b'))` with the cursor past both characters. -/
theorem c5_sequencing_witness :
    (ParseChar.from_char 'a').parse (ParserState.new ['a', 'b']) =
      .ok (.ok ('a', ⟨['b'], 1⟩)) ∧
    (ParseChar.from_char 'b').parse (⟨['b'], 1⟩ : ParserState) =
      .ok (.ok ('b', ⟨[], 2⟩)) ∧
    ParseAnd.parse (ParseChar.from_char 'a').parse (ParseChar.from_char 'b').parse
      (ParserState.new ['a', 'b']) = .ok (.ok (('a', 'b'), ⟨[], 2⟩)) := by
  refine ⟨rfl, rfl, ?_⟩
  exact ((c5_sequencing (ParseChar.from_char 'a').parse
      (ParseChar.from_char 'b').parse (ParserState.new ['a', 'b'])).2
    'a' ⟨['b'], 1⟩ rfl).2 'b' ⟨[], 2⟩ rfl

/-- C7: with `max = 0` the loop of `ParseCount::parse` never runs, so the
sub-parser is never invoked (the outcome is the same for any two
sub-parsers); with `min = 0` it succeeds with empty output and the cursor
unchanged, and with `min > 0` it fails with `WrongCount{min, 0, 0}`. -/
theorem c7_max_zero {α ε : Type} (min : Nat) (p q : ParserFn α ε)
    (s : ParserState) :
    ParseCount.parse min 0 p s = ParseCount.parse min 0 q s ∧
    (min = 0 → ParseCount.parse min 0 p s = .ok (.ok ([], s))) ∧
    (0 < min → ParseCount.parse min 0 p s =
      .ok (.error (.wrongCount min 0 0))) := by
  refine ⟨?_, fun h0 => ?_, fun hpos => ?_⟩
  · simp [ParseCount.parse, countLoop]
  · simp [ParseCount.parse, countLoop, h0]
  · simp [ParseCount.parse, countLoop, List.length_nil, hpos]

/-- Witness for C7 at concrete inputs: `between(2, 0)` over a character
parser fails with `WrongCount{2, 0, 0}` even on input it could match, and
`between(0, 0)` succeeds with empty output and an unchanged cursor. -/
theorem c7_max_zero_witness :
    ParseCount.parse 2 0 (ParseChar.from_char 'a').parse
      (ParserState.new ['a', 'a']) = .ok (.error (.wrongCount 2 0 0)) ∧
    ParseCount.parse 0 0 (ParseChar.from_char 'a').parse
      (ParserState.new ['a', 'a']) = .ok (.ok ([], ParserState.new ['a', 'a'])) := by
  exact ⟨(c7_max_zero 2 (ParseChar.from_char 'a').parse
      (ParseChar.from_char 'a').parse (ParserState.new ['a', 'a'])).2.2 (by decide),
    (c7_max_zero 0 (ParseChar.from_char 'a').parse
      (ParseChar.from_char 'a').parse (ParserState.new ['a', 'a'])).2.1 rfl⟩

/-- C9: parsing is deterministic — the outcome of any combinator is a pure
function of the cursor's two fields (remaining input and offset); two
cursors that agree on both fields produce identical outcomes. -/
theorem c9_deterministic {α : Type} (c : Combinator α) (s₁ s₂ : ParserState)
    (h₁ : s₁.input = s₂.input) (h₂ : s₁.index = s₂.index) :
    c.run s₁ = c.run s₂ := by
  cases s₁
  cases s₂
  cases h₁
  cases h₂
  rfl

/-- Witness for C9 at a concrete input: two equal-field copies of the
cursor over `"ab"` give the same outcome for `char('a').one_or_more()`. -/
theorem c9_deterministic_witness :
    (ParserState.new_offset ['a', 'b'] 0).input = (ParserState.new ['a', 'b']).input ∧
    (ParserState.new_offset ['a', 'b'] 0).index = (ParserState.new ['a', 'b']).index ∧
    Combinator.run (.count 1 usizeMax (.pchar (ParseChar.from_char 'a')))
        (ParserState.new_offset ['a', 'b'] 0) =
      Combinator.run (.count 1 usizeMax (.pchar (ParseChar.from_char 'a')))
        (ParserState.new ['a', 'b']) := by
  exact ⟨rfl, rfl,
    c9_deterministic (.count 1 usizeMax (.pchar (ParseChar.from_char 'a')))
      (ParserState.new_offset ['a', 'b'] 0) (ParserState.new ['a', 'b']) rfl rfl⟩

/-- Slicing a string at byte index `k` succeeds exactly when `k` bytes were
dropped: the byte length of the returned suffix plus `k` is the byte length
of the whole string. -/
theorem dropBytes_byteLen (l : List Char) :
    ∀ k r, dropBytes l k = some r → byteLen r + k = byteLen l := by
  induction l with
  | nil =>
    intro k r h
    cases k with
    | zero =>
      simp only [dropBytes, Option.some.injEq] at h
      subst h
      simp
    | succ n =>
      simp only [dropBytes] at h
      exact Option.noConfusion h
  | cons c rest ih =>
    intro k r h
    cases k with
    | zero =>
      simp only [dropBytes, Option.some.injEq] at h
      subst h
      simp
    | succ n =>
      simp only [dropBytes] at h
      split at h
      · have := ih _ _ h
        simp only [byteLen]
        omega
      · simp at h

/-- Inversion of a successful `ParserState::char`: the new index is the old
index plus `offset + 1`, and `offset + 1` bytes were removed from the
remaining input. -/
theorem char_ok_inv (s : ParserState) (off : Nat) (ns : ParserState) (c : Char)
    (h : s.char off = .ok (some (ns, c))) :
    ns.index = s.index + off + 1 ∧ byteLen ns.input + (off + 1) = byteLen s.input := by
  unfold ParserState.char at h
  split at h
  · simp at h
  · split at h
    next rest c' heq1 heq2 =>
      simp only [PResult.ok.injEq, Option.some.injEq, Prod.mk.injEq] at h
      obtain ⟨h1, h2⟩ := h
      subst h1
      exact ⟨rfl, dropBytes_byteLen s.input (off + 1) rest heq1⟩
    next => simp at h

/-- Inversion of a successful `ParseChar::parse`: the cursor advances by
exactly one in the index and loses exactly one byte of remaining input. -/
theorem ParseChar.parse_ok_inv (p : ParseChar) (s : ParserState) (a : Char)
    (s' : ParserState) (h : p.parse s = .ok (.ok (a, s'))) :
    s'.index = s.index + 1 ∧ byteLen s'.input + 1 = byteLen s.input := by
  unfold ParseChar.parse at h
  split at h
  · simp at h
  · simp at h
  · next ns ca heq =>
    split at h
    · simp only [PResult.ok.injEq, Except.ok.injEq, Prod.mk.injEq] at h
      obtain ⟨h1, h2⟩ := h
      subst h2
      have := char_ok_inv s 0 ns ca heq
      omega
    · simp at h

/-- Inversion of a successful `ParseChar::parse`: the returned character
passed both bound checks. -/
theorem ParseChar.parse_ok_bounds (p : ParseChar) (s : ParserState) (a : Char)
    (s' : ParserState) (h : p.parse s = .ok (.ok (a, s'))) :
    (above_start p.start a && below_end p.end_ a) = true := by
  unfold ParseChar.parse at h
  split at h
  · simp at h
  · simp at h
  · next ns ca heq =>
    split at h
    next hcond =>
      simp only [PResult.ok.injEq, Except.ok.injEq, Prod.mk.injEq] at h
      obtain ⟨h1, h2⟩ := h
      subst h1
      exact hcond
    next => simp at h

/-- A run of `n` consecutive matches produces exactly `n` values. -/
theorem iterateMatches_length {α ε : Type} (p : ParserFn α ε) :
    ∀ n s l t, iterateMatches p n s = some (l, t) → l.length = n := by
  intro n
  induction n with
  | zero =>
    intro s l t h
    simp only [iterateMatches, Option.some.injEq, Prod.mk.injEq] at h
    obtain ⟨h1, h2⟩ := h
    subst h1
    rfl
  | succ m ih =>
    intro s l t h
    simp only [iterateMatches] at h
    split at h
    · next a s' heq =>
      split at h
      · next l' t' heq2 =>
        simp only [Option.some.injEq, Prod.mk.injEq] at h
        obtain ⟨h1, h2⟩ := h
        subst h1
        simp [ih s' l' t' heq2]
      · exact Option.noConfusion h
    · exact Option.noConfusion h

/-- When the sub-parser succeeds `n` consecutive times, the repetition loop
with fuel `n` collects exactly those `n` values and stops at the final
state of the run. -/
theorem countLoop_of_iterate {α ε : Type} (p : ParserFn α ε) :
    ∀ n s acc l t, iterateMatches p n s = some (l, t) →
      countLoop p n s acc = .ok (acc ++ l, t) := by
  intro n
  induction n with
  | zero =>
    intro s acc l t h
    simp only [iterateMatches, Option.some.injEq, Prod.mk.injEq] at h
    obtain ⟨h1, h2⟩ := h
    subst h1
    subst h2
    simp [countLoop]
  | succ m ih =>
    intro s acc l t h
    simp only [iterateMatches] at h
    split at h
    · next a s' heq =>
      split at h
      · next l' t' heq2 =>
        simp only [Option.some.injEq, Prod.mk.injEq] at h
        obtain ⟨h1, h2⟩ := h
        rw [h2] at heq2
        subst h1
        simp only [countLoop, heq]
        have := ih s' (acc ++ [a]) l' t heq2
        simpa using this
      · exact Option.noConfusion h
    · exact Option.noConfusion h

/-- When the sub-parser succeeds exactly `k` consecutive times and then
fails, the repetition loop with any fuel larger than `k` collects exactly
those `k` values and stops at the state of the failed attempt, not past
it. -/
theorem countLoop_stops {α ε : Type} (p : ParserFn α ε) (e : ε) :
    ∀ k fuel s acc l t, iterateMatches p k s = some (l, t) →
      p t = .ok (.error e) → k < fuel →
      countLoop p fuel s acc = .ok (acc ++ l, t) := by
  intro k
  induction k with
  | zero =>
    intro fuel s acc l t h hfail hlt
    simp only [iterateMatches, Option.some.injEq, Prod.mk.injEq] at h
    obtain ⟨h1, h2⟩ := h
    subst h1
    subst h2
    cases fuel with
    | zero => omega
    | succ f => simp [countLoop, hfail]
  | succ m ih =>
    intro fuel s acc l t h hfail hlt
    simp only [iterateMatches] at h
    split at h
    · next a s' heq =>
      split at h
      · next l' t' heq2 =>
        simp only [Option.some.injEq, Prod.mk.injEq] at h
        obtain ⟨h1, h2⟩ := h
        rw [h2] at heq2
        subst h1
        cases fuel with
        | zero => omega
        | succ f =>
          simp only [countLoop, heq]
          have := ih f s' (acc ++ [a]) l' t heq2 hfail (by omega)
          simpa using this
      · exact Option.noConfusion h
    · exact Option.noConfusion h

/-- C3: for `min ≤ max` and an input with exactly `k` consecutive matches
of the sub-parser (it succeeds `k` times from `s`, ending at `t`, and then
fails at `t`), `between(min, max)` succeeds iff `k ≥ min`, with exactly
`min(k, max)` values, in order, and the cursor advanced exactly past those
values (never past the failed attempt); otherwise it fails with
`WrongCount{min, max, found: k}`. -/
theorem c3_repetition_bounds {α ε : Type} (min max k : Nat)
    (p : ParserFn α ε) (s t t' : ParserState) (vs vs' : List α) (e : ε)
    (hmm : min ≤ max)
    (hk : iterateMatches p k s = some (vs, t))
    (hfail : p t = .ok (.error e))
    (hmid : iterateMatches p (Nat.min k max) s = some (vs', t')) :
    (min ≤ k → ParseCount.parse min max p s = .ok (.ok (vs', t')) ∧
      vs'.length = Nat.min k max) ∧
    (k < min → ParseCount.parse min max p s =
      .ok (.error (.wrongCount min max k))) := by
  have hlen : vs.length = k := iterateMatches_length p k s vs t hk
  have hlen' : vs'.length = Nat.min k max := iterateMatches_length p _ s vs' t' hmid
  rcases le_or_lt max k with hmk | hkm
  · -- k ≥ max: the loop exhausts its fuel after `max` elements.
    have hminkm : Nat.min k max = max := Nat.min_eq_right hmk
    have hloop : countLoop p max s [] = .ok ([] ++ vs', t') := by
      apply countLoop_of_iterate p max s [] vs' t'
      rw [← hminkm]
      exact hmid
    refine ⟨fun hmin => ?_, fun hklt => absurd (le_trans hmm hmk) (by omega)⟩
    constructor
    · simp only [ParseCount.parse, hloop, List.nil_append]
      rw [if_neg (by omega)]
    · exact hlen'
  · -- k < max: the loop stops at the failing attempt.
    have hminkk : Nat.min k max = k := Nat.min_eq_left (le_of_lt hkm)
    have hvs : vs' = vs ∧ t' = t := by
      rw [hminkk, hk] at hmid
      simp only [Option.some.injEq, Prod.mk.injEq] at hmid
      exact ⟨hmid.1.symm, hmid.2.symm⟩
    obtain ⟨hv1, hv2⟩ := hvs
    subst hv1
    subst hv2
    have hloop : countLoop p max s [] = .ok ([] ++ vs', t') :=
      countLoop_stops p e k max s [] vs' t' hk hfail hkm
    constructor
    · intro hmin
      constructor
      · simp only [ParseCount.parse, hloop, List.nil_append]
        rw [if_neg (by omega)]
      · exact hlen'
    · intro hklt
      simp only [ParseCount.parse, hloop, List.nil_append]
      rw [if_pos (by omega)]
      rw [hlen]

/-- Witness for C3 at concrete inputs: `"aaa"` contains exactly three
consecutive matches of `char('a')`, so `char('a').between(1, 2)` succeeds
with `min(3, 2) = 2` values and the cursor stops after the second. -/
theorem c3_repetition_bounds_witness :
    (1 : Nat) ≤ 2 ∧ (1 : Nat) ≤ 3 ∧
    ParseCount.parse 1 2 (ParseChar.from_char 'a').parse
      (ParserState.new ['a', 'a', 'a']) =
      .ok (.ok (['a', 'a'], ⟨['a'], 2⟩)) := by
  refine ⟨by decide, by decide, ?_⟩
  exact ((c3_repetition_bounds 1 2 3 (ParseChar.from_char 'a').parse
    (ParserState.new ['a', 'a', 'a']) ⟨[], 3⟩ ⟨['a'], 2⟩
    ['a', 'a', 'a'] ['a', 'a']
    (.unexpected (some (expected_str_from_char_range (some 'a') (some 'a'))) none)
    (by decide) (by rfl) (by rfl) (by rfl)).1 (by decide)).1

/-- If the sub-parser never decreases the index on success, neither does
the repetition loop; the collected list also only grows. -/
theorem countLoop_index_le {α ε : Type} (p : ParserFn α ε)
    (hmono : ∀ s a s', p s = .ok (.ok (a, s')) → s.index ≤ s'.index) :
    ∀ fuel s acc l t, countLoop p fuel s acc = .ok (l, t) →
      s.index ≤ t.index ∧ acc.length ≤ l.length := by
  intro fuel
  induction fuel with
  | zero =>
    intro s acc l t h
    simp only [countLoop, PResult.ok.injEq, Prod.mk.injEq] at h
    obtain ⟨h1, h2⟩ := h
    subst h1
    subst h2
    exact ⟨le_refl _, le_refl _⟩
  | succ f ih =>
    intro s acc l t h
    simp only [countLoop] at h
    split at h
    · exact PResult.noConfusion h
    · simp only [PResult.ok.injEq, Prod.mk.injEq] at h
      obtain ⟨h1, h2⟩ := h
      subst h1
      subst h2
      exact ⟨le_refl _, le_refl _⟩
    · next a s' heq =>
      have hstep := hmono s a s' heq
      have := ih s' (acc ++ [a]) l t h
      simp only [List.length_append, List.length_cons, List.length_nil] at this
      constructor
      · omega
      · omega

/-- If the sub-parser strictly increases the index on every success, the
repetition loop increases the index by at least the number of elements it
collects. -/
theorem countLoop_index_strict {α ε : Type} (p : ParserFn α ε)
    (hstrict : ∀ s a s', p s = .ok (.ok (a, s')) → s.index < s'.index) :
    ∀ fuel s acc l t, countLoop p fuel s acc = .ok (l, t) →
      acc.length ≤ l.length ∧ s.index + (l.length - acc.length) ≤ t.index := by
  intro fuel
  induction fuel with
  | zero =>
    intro s acc l t h
    simp only [countLoop, PResult.ok.injEq, Prod.mk.injEq] at h
    obtain ⟨h1, h2⟩ := h
    subst h1
    subst h2
    exact ⟨le_refl _, by omega⟩
  | succ f ih =>
    intro s acc l t h
    simp only [countLoop] at h
    split at h
    · exact PResult.noConfusion h
    · simp only [PResult.ok.injEq, Prod.mk.injEq] at h
      obtain ⟨h1, h2⟩ := h
      subst h1
      subst h2
      exact ⟨le_refl _, by omega⟩
    · next a s' heq =>
      have hstep := hstrict s a s' heq
      have := ih s' (acc ++ [a]) l t h
      simp only [List.length_append, List.length_cons, List.length_nil] at this
      constructor
      · omega
      · omega

/-- C8: whenever a combinator built from the library's parsers succeeds,
the returned cursor's offset is greater than or equal to the input
cursor's offset, and it is strictly greater whenever the combinator is
not zero-width capable (`consumesOnSuccess`). -/
theorem c8_monotonic {α : Type} (c : Combinator α) :
    ∀ s v s', c.run s = .ok (.ok (v, s')) →
      s.index ≤ s'.index ∧ (consumesOnSuccess c → s.index < s'.index) := by
  induction c with
  | pchar p =>
    intro s v s' h
    have := ParseChar.parse_ok_inv p s v s' h
    exact ⟨by omega, fun _ => by omega⟩
  | count min max sub ih =>
    intro s v s' h
    have hmono : ∀ s a s', sub.run s = .ok (.ok (a, s')) → s.index ≤ s'.index :=
      fun s a s' hh => (ih s a s' hh).1
    unfold Combinator.run ParseCount.parse at h
    split at h
    · exact PResult.noConfusion h
    · next output new_state hloop =>
      split at h
      · simp at h
      · next hnl =>
        simp only [PResult.ok.injEq, Except.ok.injEq, Prod.mk.injEq] at h
        obtain ⟨h1, h2⟩ := h
        subst h2
        have hle := countLoop_index_le sub.run hmono max s [] output new_state hloop
        refine ⟨hle.1, fun hcons => ?_⟩
        obtain ⟨h1min, hsub⟩ := hcons
        have hstrict : ∀ s a s', sub.run s = .ok (.ok (a, s')) → s.index < s'.index :=
          fun s a s' hh => (ih s a s' hh).2 hsub
        have := countLoop_index_strict sub.run hstrict max s [] output new_state hloop
        simp only [List.length_nil] at this
        omega
  | seq a b iha ihb =>
    intro s v s' h
    unfold Combinator.run ParseAnd.parse at h
    split at h
    · exact PResult.noConfusion h
    · simp at h
    · next x s₁ heqa =>
      split at h
      · exact PResult.noConfusion h
      · simp at h
      · next y s₂ heqb =>
        simp only [PResult.ok.injEq, Except.ok.injEq, Prod.mk.injEq] at h
        obtain ⟨h1, h2⟩ := h
        subst h2
        have ha := iha s x s₁ heqa
        have hb := ihb s₁ y s₂ heqb
        refine ⟨by omega, fun hcons => ?_⟩
        rcases hcons with hca | hcb
        · have := ha.2 hca
          omega
        · have := hb.2 hcb
          omega

/-- Witness for C8 at concrete inputs: `char('a').and(char('b').between(1, 3))`
on `"abb"` succeeds with the offset strictly increased from 0 to 3; the
combinator is not zero-width capable. -/
theorem c8_monotonic_witness :
    Combinator.run
        (.seq (.pchar (ParseChar.from_char 'a'))
          (.count 1 3 (.pchar (ParseChar.from_char 'b'))))
        (ParserState.new ['a', 'b', 'b']) =
      .ok (.ok (('a', ['b', 'b']), ⟨[], 3⟩)) ∧
    (ParserState.new ['a', 'b', 'b']).index ≤ (⟨[], 3⟩ : ParserState).index ∧
    (ParserState.new ['a', 'b', 'b']).index < (⟨[], 3⟩ : ParserState).index := by
  have h := c8_monotonic
    (.seq (.pchar (ParseChar.from_char 'a'))
      (.count 1 3 (.pchar (ParseChar.from_char 'b'))))
    (ParserState.new ['a', 'b', 'b']) ('a', ['b', 'b']) ⟨[], 3⟩ (by rfl)
  exact ⟨by rfl, h.1, h.2 (Or.inl trivial)⟩

/-- The zero-width repetition `from_any().between(0, 0)` succeeds on every
cursor with empty output and an unchanged cursor, without consuming. -/
theorem zeroWidthRep_ok (s : ParserState) : zeroWidthRep s = .ok (.ok ([], s)) := by
  rfl

/-- With the zero-width repetition as sub-parser, every loop iteration
succeeds without consuming, so the loop spends all of its fuel. -/
theorem countLoop_zeroWidthRep :
    ∀ n s acc, countLoop zeroWidthRep n s acc =
      .ok (acc ++ List.replicate n ([] : List Char), s) := by
  intro n
  induction n with
  | zero =>
    intro s acc
    simp [countLoop]
  | succ m ih =>
    intro s acc
    simp only [countLoop, zeroWidthRep_ok, ih, List.replicate_succ]
    simp

/-- With the zero-width repetition as sub-parser, `between(min, max)`
always succeeds with `max` (empty) elements whenever `min ≤ max`. -/
theorem parseCount_zeroWidthRep (min max : Nat) (s : ParserState) (h : min ≤ max) :
    ParseCount.parse min max zeroWidthRep s =
      .ok (.ok (List.replicate max ([] : List Char), s)) := by
  have hloop := countLoop_zeroWidthRep max s []
  unfold ParseCount.parse
  rw [hloop]
  simp only [List.nil_append, List.length_replicate]
  rw [if_neg (by omega)]

/-- C6 counterexample: the claim quantifies over *every* sub-parser, but
for the zero-width sub-parser `from_any().between(0, 0)` the repetition
`at_least(0)` on the empty input succeeds after `usize::MAX` loop
iterations — one per collected element — which is not bounded by the
length (0) of the remaining input. -/
theorem c6_counterexample :
    at_least zeroWidthRep 0 (ParserState.new []) =
      .ok (.ok (List.replicate usizeMax ([] : List Char), ParserState.new [])) ∧
    (ParserState.new []).input.length <
      (List.replicate usizeMax ([] : List Char)).length := by
  constructor
  · exact parseCount_zeroWidthRep 0 usizeMax (ParserState.new []) (Nat.zero_le _)
  · simp only [ParserState.new, ParserState.new_offset, List.length_nil,
      List.length_replicate, usizeMax]
    norm_num

/-- The repetition loop collects at most `byteLen` of the starting input
many elements when the sub-parser strictly consumes input on every
success. -/
theorem countLoop_length_le {α ε : Type} (p : ParserFn α ε)
    (hcons : ∀ s a s', p s = .ok (.ok (a, s')) → byteLen s'.input < byteLen s.input) :
    ∀ fuel s acc l t, countLoop p fuel s acc = .ok (l, t) →
      l.length ≤ acc.length + byteLen s.input := by
  intro fuel
  induction fuel with
  | zero =>
    intro s acc l t h
    simp only [countLoop, PResult.ok.injEq, Prod.mk.injEq] at h
    obtain ⟨h1, h2⟩ := h
    subst h1
    omega
  | succ f ih =>
    intro s acc l t h
    simp only [countLoop] at h
    split at h
    · exact PResult.noConfusion h
    · simp only [PResult.ok.injEq, Prod.mk.injEq] at h
      obtain ⟨h1, h2⟩ := h
      subst h1
      omega
    · next a s' heq =>
      have hstep := hcons s a s' heq
      have := ih s' (acc ++ [a]) l t h
      simp only [List.length_append, List.length_cons, List.length_nil] at this
      omega

/-- C6 amended: for every sub-parser that strictly consumes remaining
input on each success, a successful `at_least(min)` (unbounded-max
repetition) collects at most as many elements — i.e. performs at most as
many successful loop iterations — as the byte length of the remaining
input, so the loop is bounded by the input length. -/
theorem c6_at_least_bounded {α ε : Type} (p : ParserFn α ε) (min : Nat)
    (s t : ParserState) (l : List α)
    (hcons : ∀ s₁ a s₂, p s₁ = .ok (.ok (a, s₂)) → byteLen s₂.input < byteLen s₁.input)
    (h : at_least p min s = .ok (.ok (l, t))) :
    l.length ≤ byteLen s.input := by
  unfold at_least between ParseCount.parse at h
  split at h
  · exact PResult.noConfusion h
  · next output new_state hloop =>
    split at h
    · simp at h
    · simp only [PResult.ok.injEq, Except.ok.injEq, Prod.mk.injEq] at h
      obtain ⟨h1, h2⟩ := h
      subst h1
      have := countLoop_length_le p hcons usizeMax s [] output new_state hloop
      simpa using this

/-- Witness for the amended C6 at concrete inputs: `char('a').at_least(1)`
on `"ab"` succeeds with one element, bounded by the two bytes of input;
the character sub-parser strictly consumes on every success. -/
theorem c6_at_least_bounded_witness :
    at_least (ParseChar.from_char 'a').parse 1 (ParserState.new ['a', 'b']) =
      .ok (.ok (['a'], ⟨['b'], 1⟩)) ∧
    (['a'] : List Char).length ≤ byteLen (ParserState.new ['a', 'b']).input := by
  have hstep : iterateMatches (ParseChar.from_char 'a').parse 1
      (ParserState.new ['a', 'b']) = some (['a'], ⟨['b'], 1⟩) := by rfl
  have hstop : (ParseChar.from_char 'a').parse (⟨['b'], 1⟩ : ParserState) =
      .ok (.error (.unexpected
        (some (expected_str_from_char_range (some 'a') (some 'a')))
        (some (String.mk ['b'])))) := by rfl
  have hloop := countLoop_stops (ParseChar.from_char 'a').parse _ 1 usizeMax
    (ParserState.new ['a', 'b']) [] ['a'] ⟨['b'], 1⟩ hstep hstop
    (by norm_num [usizeMax])
  have hparse : at_least (ParseChar.from_char 'a').parse 1
      (ParserState.new ['a', 'b']) = .ok (.ok (['a'], ⟨['b'], 1⟩)) := by
    unfold at_least between ParseCount.parse
    rw [hloop]
    simp
  refine ⟨hparse, ?_⟩
  apply c6_at_least_bounded (ParseChar.from_char 'a').parse 1
    (ParserState.new ['a', 'b']) ⟨['b'], 1⟩ ['a']
  · intro s₁ a s₂ hh
    have := ParseChar.parse_ok_inv (ParseChar.from_char 'a') s₁ a s₂ hh
    omega
  · exact hparse

/-- C10 counterexample: the claim says an empty-range `from_range(lo, hi)`
with `lo > hi` always returns an `Unexpected` error.  On a cursor whose
next character is multi-byte the parse panics instead of returning any
error value: byte-based slicing aborts before the (unsatisfiable) range
check is reached. -/
theorem c10_counterexample :
    (ParseChar.from_range 'b' 'a').parse (ParserState.new ['é']) = .panicked := by
  rfl

/-- C10 amended: for `lo > hi`, `from_range(lo, hi)` never succeeds on any
cursor; it fails with `Unexpected{found: None}` on empty input and with
`Unexpected{found: Some(c)}` whenever the next character `c` is a
single-byte character (on a multi-byte next character the byte-based
cursor panics instead — see the counterexample). -/
theorem c10_empty_range (lo hi : Char) (hlt : hi < lo) (s : ParserState) :
    (∀ v s', (ParseChar.from_range lo hi).parse s ≠ .ok (.ok (v, s'))) ∧
    (s.input = [] → (ParseChar.from_range lo hi).parse s =
      .ok (.error (.unexpected
        (some (expected_str_from_char_range (some lo) (some hi))) none))) ∧
    (∀ c rest, s.input = c :: rest → utf8Width c = 1 →
      (ParseChar.from_range lo hi).parse s =
        .ok (.error (.unexpected
          (some (expected_str_from_char_range (some lo) (some hi)))
          (some (String.mk [c]))))) := by
  refine ⟨fun v s' h => ?_, fun hin => ?_, fun c rest hin hw => ?_⟩
  · have hb := ParseChar.parse_ok_bounds (ParseChar.from_range lo hi) s v s' h
    simp only [ParseChar.from_range, above_start, below_end,
      Bool.and_eq_true, decide_eq_true_eq] at hb
    exact absurd (le_trans hb.1 hb.2) (not_le.mpr hlt)
  · have hc : s.char 0 = .ok none := by
      unfold ParserState.char
      rw [hin]
      simp [byteLen]
    unfold ParseChar.parse
    rw [hc]
    rfl
  · have hfalse : (above_start (some lo) c && below_end (some hi) c) = false := by
      rcases le_or_lt lo c with hc1 | hc1
      · have hch : ¬ (c ≤ hi) := fun hch => absurd (le_trans hc1 hch) (not_le.mpr hlt)
        simp [above_start, below_end, hch]
      · have hcl : ¬ (lo ≤ c) := not_le.mpr hc1
        simp [above_start, below_end, hcl]
    have hdb : dropBytes (c :: rest) (0 + 1) = some rest := by
      simp [dropBytes, hw]
    have htake : ((c :: rest).take (0 + 1)).getLast? = some c := by
      simp
    have hc0 : s.char 0 = .ok (some (⟨rest, s.index + 0 + 1⟩, c)) := by
      unfold ParserState.char
      rw [hin]
      rw [if_neg (by simp only [byteLen, hw]; omega)]
      rw [hdb, htake]
    unfold ParseChar.parse
    rw [hc0]
    simp only [ParseChar.from_range, hfalse]
    simp

/-- Witness for the amended C10 at concrete inputs: the empty range
`from_range('b', 'a')` rejects the single-byte character `'x'` with the
claimed `Unexpected` error. -/
theorem c10_empty_range_witness :
    (ParseChar.from_range 'b' 'a').parse (ParserState.new ['x']) =
      .ok (.error (.unexpected
        (some (expected_str_from_char_range (some 'b') (some 'a')))
        (some (String.mk ['x'])))) := by
  exact (c10_empty_range 'b' 'a' (by decide) (ParserState.new ['x'])).2.2
    'x' [] rfl (by decide)
